/-
Verification of the advanced-vector container (RawMemory / Vector from
src/advanced-vector/vector.h) against its natural-language specification.

The C++ code is shallowly embedded:
  * RawMemory<T>   becomes RawMem        (an abstract block identity plus a capacity);
  * Vector<T>      becomes Vec α         (the list of live elements plus a capacity);
  * a possibly-throwing element operation (a constructor or an assignment)
    becomes an oracle of type α → Option α (none = the operation throws), and
    the corresponding member function returns Except, with the error value
    carrying the observable state of the object at the moment the exception
    propagates out of the member function.

Every definition is translated from the source file; the sole exception is
specCap, which is written from the specification's words (doubling with
floor 1) in order to compare the code's growth policy against it.
-/
import Mathlib

set_option autoImplicit false

/-- RawMemory of vector.h: an owned uninitialized block (identified
abstractly by a natural number; none = no block, as after default
construction) together with a capacity counter. -/
structure RawMem where
  block : Option Nat
  capacity : Nat
deriving DecidableEq

/-- RawMemory move constructor, lines 21-24 of vector.h:
the members are initialized with `std::move(other.buffer_)` and
`std::move(other.capacity_)`.  For a raw pointer and a size_t, moving is
copying, so the destination receives the block and capacity while the
source object is left holding the very same block and capacity.
Result: (newly constructed object, source after the construction). -/
def RawMem.moveCtor (other : RawMem) : RawMem × RawMem :=
  (⟨other.block, other.capacity⟩, other)

/-- RawMemory move assignment, lines 26-31 of vector.h: `buffer_ =
std::move(rhs.buffer_); capacity_ = std::move(rhs.capacity_);` — again a
plain copy of both scalar members; rhs is not modified and the target's
previous block is dropped without deallocation.
Result: (assigned-to object, rhs after the assignment). -/
def RawMem.moveAssign (self rhs : RawMem) : RawMem × RawMem :=
  (⟨rhs.block, rhs.capacity⟩, rhs)

/-- Vector of vector.h: the live elements (slots 0..size-1 of the buffer)
and the capacity of the owned RawMemory. size_ is elems.length. -/
structure Vec (α : Type) where
  elems : List α
  cap : Nat
deriving DecidableEq

/-- Vector.Swap, lines 190-193: data_.Swap(other.data_) (a genuine
exchange via std::swap of the members) plus std::swap(size_, other.size_).
Result: (this after, other after). -/
def vecSwap {α : Type} (self other : Vec α) : Vec α × Vec α :=
  (other, self)

/-- Vector move constructor, lines 107-109: the members are
default-initialized (null buffer, capacity 0, size 0) and then Swap(other)
is called.  Result: (newly constructed vector, other after). -/
def vecMoveCtor {α : Type} (other : Vec α) : Vec α × Vec α :=
  vecSwap ⟨[], 0⟩ other

/-- Vector move assignment, lines 136-141: if this != &rhs then Swap(rhs);
the aliasing check is the Bool argument (true = self-assignment).
Result: (this after, rhs after). -/
def vecMoveAssign {α : Type} (self rhs : Vec α) (selfIsRhs : Bool) : Vec α × Vec α :=
  if selfIsRhs then (self, rhs) else vecSwap self rhs

/-- Vector.PopBack, lines 220-225: if size_ > 0, destroy the element in
slot size_-1 and decrement size_; otherwise do nothing.  Capacity is
untouched. -/
def popBack {α : Type} (v : Vec α) : Vec α :=
  if v.elems.length > 0 then ⟨v.elems.dropLast, v.cap⟩ else v

/-- Element-wise relocation loop of std::uninitialized_copy_n /
std::uninitialized_move_n as used by Vector::UninitializedConstructN
(lines 307-314): construct a new element from each source element in
order; if a construction throws (oracle returns none), the elements
already constructed are destroyed and the failure propagates, the source
elements staying intact (copying, or moving of a nothrow-move type). -/
def relocList {α : Type} (f : α → Option α) : List α → Option (List α)
  | [] => some []
  | x :: xs =>
    match f x with
    | none => none
    | some y =>
      match relocList f xs with
      | none => none
      | some ys => some (y :: ys)

/-- Vector.Reserve, lines 167-176: return unchanged if new_capacity <=
Capacity(); otherwise allocate a block of capacity new_capacity, relocate
the size_ live elements into it, destroy the originals and adopt the new
block.  destroy_n and the Swap follow the relocation, so when the
relocation throws the members data_ and size_ are still those from before
the call: the error value is the unchanged vector. -/
def reserveE {α : Type} (v : Vec α) (new_capacity : Nat) (reloc : α → Option α) :
    Except (Vec α) (Vec α) :=
  if new_capacity ≤ v.cap then .ok v
  else
    match relocList reloc v.elems with
    | none => .error v
    | some moved => .ok ⟨moved, new_capacity⟩

/-- Vector.EmplaceBack, lines 203-218.  mk is the construction of the new
element from the forwarded arguments (none = that constructor throws).
Growth branch (size_ == Capacity()): allocate capacity (size_ == 0 ? 1 :
size_ * 2), construct the new element into slot size_ of the new block,
relocate the old elements, destroy them, swap the blocks.  Both throwing
steps happen before any member is mutated, so the error value is the
unchanged vector.  Non-growth branch: construct directly into slot size_.
++size_ happens only after all of this. -/
def emplaceBackE {α : Type} (v : Vec α) (mk : Option α) (reloc : α → Option α) :
    Except (Vec α) (Vec α) :=
  if v.elems.length = v.cap then
    match mk with
    | none => .error v
    | some x =>
      match relocList reloc v.elems with
      | none => .error v
      | some moved =>
        .ok ⟨moved ++ [x], if v.elems.length = 0 then 1 else v.elems.length * 2⟩
  else
    match mk with
    | none => .error v
    | some x => .ok ⟨v.elems ++ [x], v.cap⟩

/-- Vector.PushBack, lines 227-233: EmplaceBack with the value forwarded,
on the success path (the element's copy/move construction and the
relocations all succeed).  This is emplaceBackE with never-failing
oracles, written as a total function so that repeated pushes can be
folded. -/
def pushBack {α : Type} (v : Vec α) (x : α) : Vec α :=
  if v.elems.length = v.cap then
    ⟨v.elems ++ [x], if v.elems.length = 0 then 1 else v.elems.length * 2⟩
  else
    ⟨v.elems ++ [x], v.cap⟩

/-- Repeated PushBack: fold pushBack over a list of values. -/
def pushList {α : Type} (v : Vec α) (xs : List α) : Vec α :=
  xs.foldl pushBack v

/-- Modelled from the spec: the capacity progression promised by the
specification for repeated PushBack from empty — capacity 0 initially,
and whenever a push would exceed the prior capacity it doubles, with a
floor of 1. -/
def specCap : Nat → Nat
  | 0 => 0
  | k + 1 =>
    if k + 1 > specCap k then (if specCap k = 0 then 1 else 2 * specCap k)
    else specCap k

/-- Vector copy assignment, lines 115-134, between distinct objects.
If rhs.size_ > Capacity(): copy-and-swap (the copy constructor allocates
capacity = rhs.size_, line 100-105).  Otherwise, if size_ > rhs.size_:
std::copy rhs over the first rhs.size_ slots and destroy the trailing
size_ - rhs.size_ live elements; else std::copy rhs over the first size_
slots and uninitialized-copy the remaining rhs.size_ - size_ elements.
Either way size_ becomes rhs.size_ and the capacity is untouched. -/
def copyAssign {α : Type} (self rhs : Vec α) : Vec α :=
  if rhs.elems.length > self.cap then
    ⟨rhs.elems, rhs.elems.length⟩
  else if self.elems.length > rhs.elems.length then
    ⟨(rhs.elems ++ self.elems.drop rhs.elems.length).take rhs.elems.length, self.cap⟩
  else
    ⟨rhs.elems.take self.elems.length ++ rhs.elems.drop self.elems.length, self.cap⟩

/-- C1. The claim says RawMemory move-construction and move-assignment
leave the source with capacity zero and no owned block.  The code
(lines 21-31) moves a raw pointer and a size_t, which copies them: the
source retains both its block and its capacity, so after destroying both
objects the same block is deallocated twice.  Evaluated at a source that
owns block 0 with capacity 5: after move-construction and after
move-assignment the source still has capacity 5 and still holds a block,
and that block is the very one the destination received. -/
theorem rawMem_move_leaves_source_owning :
    (RawMem.moveCtor ⟨some 0, 5⟩).2.capacity = 5 ∧
    (RawMem.moveCtor ⟨some 0, 5⟩).2.block = some 0 ∧
    (RawMem.moveCtor ⟨some 0, 5⟩).1.block = (RawMem.moveCtor ⟨some 0, 5⟩).2.block ∧
    (RawMem.moveAssign ⟨none, 0⟩ ⟨some 0, 5⟩).2.capacity = 5 ∧
    (RawMem.moveAssign ⟨none, 0⟩ ⟨some 0, 5⟩).2.block = some 0 := by
  decide

/-- C7. Move-constructing a vector from v (lines 107-109: default-construct
the members, then Swap) yields a destination holding exactly v's prior
size, capacity and elements, and leaves v with size 0 and capacity 0. -/
theorem vecMoveCtor_spec {α : Type} (v : Vec α) :
    vecMoveCtor v = (v, ⟨[], 0⟩) := by
  cases v
  rfl

/-- C8. PopBack (lines 220-225) destroys the last live element and
decrements size when size > 0 (the live list becomes dropLast of what it
was, the capacity is unchanged), and when size is 0 it is a no-op leaving
the vector — in particular its size 0 — intact; it is a total function,
so it never fails. -/
theorem popBack_spec {α : Type} (v : Vec α) :
    (popBack v).cap = v.cap ∧
    (popBack v).elems = v.elems.dropLast ∧
    ((popBack v).elems.length = v.elems.length - 1) ∧
    (v.elems.length = 0 → popBack v = v) := by
  unfold popBack
  by_cases h : v.elems.length > 0
  · rw [if_pos h]
    refine ⟨rfl, rfl, by simp, ?_⟩
    intro h0
    omega
  · rw [if_neg h]
    have hnil : v.elems = [] := List.length_eq_zero.mp (by omega)
    refine ⟨rfl, ?_, ?_, fun _ => rfl⟩
    · rw [hnil]; rfl
    · rw [hnil]; rfl

/-- Witness for C8: PopBack applied to an empty vector of capacity 3 is a
no-op. -/
theorem popBack_spec_witness :
    popBack (⟨[], 3⟩ : Vec Nat) = ⟨[], 3⟩ :=
  (popBack_spec (⟨[], 3⟩ : Vec Nat)).2.2.2 rfl

/-- C10. Vector move assignment between distinct instances (lines 136-141)
is Swap: the destination receives the source's previous state and the
source receives the destination's previous state — in particular the
moved-from source ends up empty exactly when the target was empty — and
self-move-assignment (the this != &rhs guard) leaves the vector
unchanged. -/
theorem vecMoveAssign_swaps {α : Type} (a b : Vec α) :
    vecMoveAssign a b false = (b, a) ∧
    ((vecMoveAssign a b false).2.elems = [] ↔ a.elems = []) ∧
    vecMoveAssign a a true = (a, a) := by
  refine ⟨rfl, ?_, rfl⟩
  constructor <;> intro h <;> exact h

/-- Unfolding equation for specCap at a successor. -/
theorem specCap_succ (k : Nat) :
    specCap (k + 1) =
      if k + 1 > specCap k then (if specCap k = 0 then 1 else 2 * specCap k)
      else specCap k := rfl

/-- The spec's capacity progression is never below the number of pushes. -/
theorem specCap_ge (k : Nat) : k ≤ specCap k := by
  induction k with
  | zero => exact Nat.le_refl 0
  | succ n ih =>
    rw [specCap_succ]
    by_cases hgt : n + 1 > specCap n
    · rw [if_pos hgt]
      by_cases hz : specCap n = 0
      · rw [if_pos hz]
        omega
      · rw [if_neg hz]
        omega
    · rw [if_neg hgt]
      omega

/-- One PushBack step, starting from a vector whose elements are xs and
whose capacity is the spec's progression value at xs.length, lands on the
progression value at xs.length + 1. -/
theorem pushBack_step {α : Type} (xs : List α) (x : α) :
    pushBack ⟨xs, specCap xs.length⟩ x = ⟨xs ++ [x], specCap (xs.length + 1)⟩ := by
  unfold pushBack
  simp only
  by_cases heq : xs.length = specCap xs.length
  · rw [if_pos heq]
    have hcap : specCap (xs.length + 1) = if xs.length = 0 then 1 else xs.length * 2 := by
      rw [specCap_succ, if_pos (by omega)]
      by_cases hz : xs.length = 0
      · rw [if_pos (by omega), if_pos hz]
      · rw [if_neg (by omega), if_neg hz]
        omega
    rw [hcap]
  · rw [if_neg heq]
    have hge := specCap_ge xs.length
    have hcap : specCap (xs.length + 1) = specCap xs.length := by
      rw [specCap_succ, if_neg (by omega)]
    rw [hcap]

/-- Folding PushBack over xs from the empty vector yields exactly xs with
the spec's capacity progression at xs.length. -/
theorem pushList_spec {α : Type} (xs : List α) :
    pushList ⟨[], 0⟩ xs = ⟨xs, specCap xs.length⟩ := by
  induction xs using List.reverseRecOn with
  | nil => rfl
  | append_singleton ys y ih =>
    unfold pushList at ih ⊢
    rw [List.foldl_append, ih, List.foldl_cons, List.foldl_nil, pushBack_step,
      List.length_append]
    rfl

/-- C4. Starting from the empty vector, after pushing the values xs the
size is xs.length, the elements appear in push order, and the capacity is
exactly the spec's doubling-with-floor-1 progression (specCap) at
xs.length; concretely, pushing 10, 20, 30 yields size 3, contents
[10, 20, 30], and the capacity after each push is 1, then 2, then 4. -/
theorem pushBack_progression {α : Type} (xs : List α) :
    (pushList ⟨[], 0⟩ xs).elems = xs ∧
    (pushList ⟨[], 0⟩ xs).elems.length = xs.length ∧
    (pushList ⟨[], 0⟩ xs).cap = specCap xs.length ∧
    (pushList (⟨[], 0⟩ : Vec Nat) [10]).cap = 1 ∧
    (pushList (⟨[], 0⟩ : Vec Nat) [10, 20]).cap = 2 ∧
    pushList (⟨[], 0⟩ : Vec Nat) [10, 20, 30] = ⟨[10, 20, 30], 4⟩ := by
  rw [pushList_spec]
  refine ⟨rfl, rfl, rfl, ?_, ?_, ?_⟩ <;> decide

/-- C9. Copy-assigning b into a when b's size does not exceed a's
capacity takes one of the two no-reallocation branches of lines 115-134:
the result has b's elements (hence b's size) and a's capacity,
unchanged. -/
theorem copyAssign_no_realloc {α : Type} (a b : Vec α)
    (h : b.elems.length ≤ a.cap) :
    copyAssign a b = ⟨b.elems, a.cap⟩ := by
  unfold copyAssign
  rw [if_neg (by omega)]
  by_cases hgt : a.elems.length > b.elems.length
  · rw [if_pos hgt]
    rw [List.take_left]
  · rw [if_neg hgt]
    rw [List.take_append_drop]

/-- Witness for C9: the spec's concrete scenario — assigning a 2-element
vector into one currently holding 5 elements with capacity 5 gives size 2,
the source's contents, and the unchanged capacity 5. -/
theorem copyAssign_no_realloc_witness :
    copyAssign (⟨[1, 2, 3, 4, 5], 5⟩ : Vec Nat) ⟨[9, 8], 2⟩ = ⟨[9, 8], 5⟩ :=
  copyAssign_no_realloc ⟨[1, 2, 3, 4, 5], 5⟩ ⟨[9, 8], 2⟩ (by decide)

/-- The loop of std::move_backward(begin() + offset, end() - 1, end()) in
line 262 of vector.h, with a fallible move-assignment oracle mas.  The
counter c is the number of moves still to perform; the loop processes
index i = p + c - 1 first, assigning slot i+1 from slot i, and walks down
to index p.  When a move-assignment throws, the exception propagates with
the list in its partially shifted state. -/
def moveBackwardN {α : Type} (mas : α → Option α) : List α → Nat → Nat → Except (List α) (List α)
  | l, _, 0 => .ok l
  | l, p, c + 1 =>
    match l[p + c]? with
    | none => .ok l
    | some x =>
      match mas x with
      | none => .error l
      | some y => moveBackwardN mas (l.set (p + c + 1) y) p c

/-- The loop of std::move(begin() + offset + 1, end(), begin() + offset)
in line 284 of vector.h, with a fallible move-assignment oracle.  The
destination index d starts at offset; each step assigns slot d from slot
d+1 and advances; c counts the remaining moves.  When a move-assignment
throws, the exception propagates with the list partially shifted. -/
def moveForwardN {α : Type} (mas : α → Option α) : List α → Nat → Nat → Except (List α) (List α)
  | l, _, 0 => .ok l
  | l, d, c + 1 =>
    match l[d + 1]? with
    | none => .ok l
    | some x =>
      match mas x with
      | none => .error l
      | some y => moveForwardN mas (l.set d y) (d + 1) c

/-- Observable state of a Vector at the moment an exception escapes
Emplace (lines 235-279): the data members (live elements, capacity, size
counter), plus what happened to the slot targeted for the new element —
whether a new element had been fully constructed in it, whether any
destructor was invoked on it during cleanup, and whether its raw memory
was released (by the catch handler's operator delete on the in-place
path, or by the discarded RawMemory's destructor on the growth path). -/
structure EmplaceErr (α : Type) where
  elems : List α
  cap : Nat
  sizeCtr : Nat
  newSlotConstructed : Bool
  newSlotDestroyCalled : Bool
  newSlotRawReleased : Bool
deriving DecidableEq

/-- Vector.Emplace, lines 235-279 (Insert, lines 289-295, forwards to it).
p is the offset pos - begin(); mk constructs an element from the
forwarded arguments; mctor is the move construction of line 260; mas is a
move assignment (lines 262-263); reloc is the relocation rule of
UninitializedConstructN.  Growth path (Capacity() <= size_): construct
the new element at offset p of a fresh block, relocate the first p old
elements, then the remaining size_ - p old elements one slot further;
all mutations of data_ and size_ come after these fallible steps, so an
escaping exception leaves the members unchanged (a relocation failure
after mk succeeded leaves the constructed new element behind in the
discarded block: no destructor call, raw memory released).  In-place path
with pos != end(): build a temporary, move-construct the current last
element into the trailing slot, shift [pos, end-1) right by one, move the
temporary into slot p; the catch handler performs operator delete(end())
— releasing raw memory at the trailing slot without destroying anything —
and rethrows before ++size_ executes.  In-place path with pos == end():
construct directly into the trailing slot, same catch handler.  On
success, size_ is incremented and begin() + offset is returned (modelled
as the offset p). -/
def emplaceE {α : Type} (v : Vec α) (p : Nat) (mk : Option α)
    (mctor mas reloc : α → Option α) : Except (EmplaceErr α) (Vec α × Nat) :=
  if v.cap ≤ v.elems.length then
    match mk with
    | none => .error ⟨v.elems, v.cap, v.elems.length, false, false, true⟩
    | some x =>
      match relocList reloc (v.elems.take p) with
      | none => .error ⟨v.elems, v.cap, v.elems.length, true, false, true⟩
      | some front =>
        match relocList reloc (v.elems.drop p) with
        | none => .error ⟨v.elems, v.cap, v.elems.length, true, false, true⟩
        | some back =>
          .ok (⟨front ++ x :: back, if v.elems.length = 0 then 1 else v.elems.length * 2⟩, p)
  else
    if p ≠ v.elems.length then
      match mk with
      | none => .error ⟨v.elems, v.cap, v.elems.length, false, false, true⟩
      | some temp =>
        match v.elems.getLast? with
        | none => .ok (⟨v.elems, v.cap⟩, p)
        | some lastElem =>
          match mctor lastElem with
          | none => .error ⟨v.elems, v.cap, v.elems.length, false, false, true⟩
          | some tr =>
            match moveBackwardN mas v.elems p (v.elems.length - 1 - p) with
            | .error l => .error ⟨l, v.cap, v.elems.length, true, false, true⟩
            | .ok l =>
              match mas temp with
              | none => .error ⟨l, v.cap, v.elems.length, true, false, true⟩
              | some tv => .ok (⟨l.set p tv ++ [tr], v.cap⟩, p)
    else
      match mk with
      | none => .error ⟨v.elems, v.cap, v.elems.length, false, false, true⟩
      | some x => .ok (⟨v.elems ++ [x], v.cap⟩, p)

/-- Capacity of the vector after a successful Emplace: doubled (floor 1)
on the growth path, unchanged otherwise — from lines 240-242. -/
def emplaceNewCap {α : Type} (v : Vec α) : Nat :=
  if v.cap ≤ v.elems.length then
    (if v.elems.length = 0 then 1 else v.elems.length * 2)
  else v.cap

/-- Vector.Erase, lines 281-287: shift [pos+1, end) left one slot by
move-assignment, then PopBack, and return begin() + offset (modelled as
the offset).  An exception from a move-assignment propagates before
PopBack runs, so the error state keeps the original size with the
elements partially shifted. -/
def eraseE {α : Type} (v : Vec α) (p : Nat) (mas : α → Option α) :
    Except (Vec α) (Vec α × Nat) :=
  match moveForwardN mas v.elems p (v.elems.length - 1 - p) with
  | .error l => .error ⟨l, v.cap⟩
  | .ok l => .ok (popBack ⟨l, v.cap⟩, p)

/-- Relocation with a never-failing identity oracle reproduces the list. -/
theorem relocList_some {α : Type} (l : List α) :
    relocList (fun a => some a) l = some l := by
  induction l with
  | nil => rfl
  | cons x xs ih => simp [relocList, ih]

/-- Setting a slot at or beyond the taken length leaves the taken part
unchanged. -/
theorem set_take_of_le {α : Type} (l : List α) (i j : Nat) (a : α) (h : j ≤ i) :
    (l.set i a).take j = l.take j := by
  rw [List.set_take]
  exact List.set_eq_of_length_le (by rw [List.length_take]; omega)

/-- Dropping exactly at an in-range set slot exposes the written value. -/
theorem drop_set_same {α : Type} (l : List α) (i : Nat) (a : α) (h : i < l.length) :
    (l.set i a).drop i = a :: l.drop (i + 1) := by
  have h2 : i < (l.set i a).length := by rw [List.length_set]; exact h
  rw [List.drop_eq_getElem_cons h2, List.getElem_set_self h2,
    List.drop_set_of_lt a l (Nat.lt_succ_self i)]

/-- take of an in-range successor index, with the boundary element made
explicit. -/
theorem take_succ_of_lt {α : Type} (l : List α) (i : Nat) (h : i < l.length) :
    l.take (i + 1) = l.take i ++ [l[i]] := by
  rw [List.take_succ, List.getElem?_eq_getElem h]
  rfl

/-- Overwriting the last slot of an in-range take. -/
theorem set_take_succ {α : Type} (l : List α) (i : Nat) (a : α) (h : i < l.length) :
    (l.take (i + 1)).set i a = l.take i ++ [a] := by
  have hlen : (l.take i).length = i := by
    rw [List.length_take]
    omega
  rw [take_succ_of_lt l i h, List.set_append_right i a (by omega)]
  rw [hlen, Nat.sub_self]
  rfl

/-- The backward shift of line 262 with never-failing move-assignment:
shifting c elements starting one past index p produces the list whose
slots p+1 .. p+c hold the old slots p .. p+c-1, everything else
unchanged.  Slot p keeps its old value (it is overwritten afterwards by
the temporary). -/
theorem moveBackwardN_id {α : Type} (c : Nat) :
    ∀ (l : List α) (p : Nat), p + c < l.length →
      moveBackwardN (fun a => some a) l p c =
        .ok (l.take (p + 1) ++ (l.drop p).take c ++ l.drop (p + c + 1)) := by
  induction c with
  | zero =>
    intro l p h
    simp [moveBackwardN, List.take_append_drop]
  | succ c ih =>
    intro l p h
    have hpc : p + c < l.length := by omega
    have hset : p + c < (l.set (p + c + 1) l[p + c]).length := by
      rw [List.length_set]
      omega
    simp only [moveBackwardN, List.getElem?_eq_getElem hpc]
    rw [ih (l.set (p + c + 1) l[p + c]) p (by rw [List.length_set]; omega)]
    congr 1
    rw [set_take_of_le _ _ _ _ (by omega)]
    rw [drop_set_same _ _ _ (by omega)]
    have hdrop : (l.set (p + c + 1) l[p + c]).drop p = (l.drop p).set (c + 1) l[p + c] := by
      rw [List.set_drop]
      congr 1
    rw [hdrop, set_take_of_le _ _ _ _ (by omega)]
    have htake : (l.drop p).take (c + 1) = (l.drop p).take c ++ [l[p + c]] := by
      have hc : c < (l.drop p).length := by
        rw [List.length_drop]
        omega
      rw [take_succ_of_lt _ _ hc]
      congr 2
      exact List.getElem_drop l
    rw [htake]
    have harith : p + (c + 1) + 1 = p + c + 1 + 1 := by omega
    rw [harith]
    simp [List.append_assoc]

/-- The forward shift of line 284 with never-failing move-assignment:
shifting c elements down onto index d produces the list whose slots
d .. d+c-1 hold the old slots d+1 .. d+c, everything else unchanged.
The old last element of the shifted range stays duplicated at slot d+c
(it is the slot PopBack destroys afterwards when c reaches the end). -/
theorem moveForwardN_id {α : Type} (c : Nat) :
    ∀ (l : List α) (d : Nat), d + c < l.length →
      moveForwardN (fun a => some a) l d c =
        .ok (l.take d ++ (l.drop (d + 1)).take c ++ l.drop (d + c)) := by
  induction c with
  | zero =>
    intro l d h
    simp [moveForwardN, List.take_append_drop]
  | succ c ih =>
    intro l d h
    have hd1 : d + 1 < l.length := by omega
    simp only [moveForwardN, List.getElem?_eq_getElem hd1]
    rw [ih (l.set d l[d + 1]) (d + 1) (by rw [List.length_set]; omega)]
    congr 1
    have htake : (l.set d l[d + 1]).take (d + 1) = l.take d ++ [l[d + 1]] := by
      rw [List.set_take, set_take_succ l d l[d + 1] (by omega)]
    rw [htake]
    rw [List.drop_set_of_lt _ _ (by omega : d < d + 1 + 1)]
    rw [List.drop_set_of_lt _ _ (by omega : d < d + 1 + c)]
    have hcons : l.drop (d + 1) = l[d + 1] :: l.drop (d + 1 + 1) := by
      rw [List.drop_eq_getElem_cons hd1]
    rw [hcons, List.take_succ_cons]
    have harith : d + (c + 1) = d + 1 + c := by omega
    rw [harith]
    simp [List.append_assoc]

/-- Reassembly of the shifted suffix: the first length-1-p elements of
the dropped part, followed by the saved last element, give back the
dropped part. -/
theorem shifted_assemble {α : Type} (l : List α) (p : Nat) (hp : p < l.length) :
    (l.drop p).take (l.length - 1 - p) ++ [l[l.length - 1]] = l.drop p := by
  have h1 : (l.drop p).drop (l.length - 1 - p) = [l[l.length - 1]] := by
    rw [List.drop_drop]
    have h2 : p + (l.length - 1 - p) = l.length - 1 := by omega
    rw [h2]
    rw [List.drop_eq_getElem_cons (by omega)]
    have h3 : l.drop (l.length - 1 + 1) = [] := by
      apply List.drop_eq_nil_of_le
      omega
    rw [h3]
  conv_rhs => rw [← List.take_append_drop (l.length - 1 - p) (l.drop p)]
  rw [h1]

/-- C5. For every position p in [0, size], Emplace (and hence Insert,
which forwards to it) with non-throwing element operations succeeds and
produces the original sequence with the new element spliced in at
position p — so the size grows by exactly 1 — and returns the iterator
offset p, the new element's position; the capacity is the growth rule's
value (doubled with floor 1 on the growth path, unchanged otherwise). -/
theorem emplace_splices {α : Type} (v : Vec α) (p : Nat) (x : α)
    (hp : p ≤ v.elems.length) :
    emplaceE v p (some x) (fun a => some a) (fun a => some a) (fun a => some a) =
      .ok (⟨v.elems.take p ++ x :: v.elems.drop p, emplaceNewCap v⟩, p) ∧
    (v.elems.take p ++ x :: v.elems.drop p).length = v.elems.length + 1 := by
  constructor
  · unfold emplaceE emplaceNewCap
    by_cases hg : v.cap ≤ v.elems.length
    · rw [if_pos hg, if_pos hg]
      rw [relocList_some, relocList_some]
    · rw [if_neg hg, if_neg hg]
      by_cases hpe : p = v.elems.length
      · rw [if_neg (by omega : ¬p ≠ v.elems.length)]
        subst hpe
        rw [List.take_length, List.drop_length]
      · rw [if_pos (by omega : p ≠ v.elems.length)]
        have hplt : p < v.elems.length := by omega
        rw [List.getLast?_eq_getElem?, List.getElem?_eq_getElem (by omega)]
        rw [moveBackwardN_id (v.elems.length - 1 - p) v.elems p (by omega)]
        have heq1 : p + (v.elems.length - 1 - p) + 1 = v.elems.length := by omega
        rw [heq1, List.drop_length, List.append_nil]
        show Except.ok
            (Vec.mk
              ((v.elems.take (p + 1) ++
                  (v.elems.drop p).take (v.elems.length - 1 - p)).set p x ++
                [v.elems[v.elems.length - 1]])
              v.cap, p) =
          Except.ok (Vec.mk (v.elems.take p ++ x :: v.elems.drop p) v.cap, p)
        have hset :
            (v.elems.take (p + 1) ++
                (v.elems.drop p).take (v.elems.length - 1 - p)).set p x =
              (v.elems.take (p + 1)).set p x ++
                (v.elems.drop p).take (v.elems.length - 1 - p) :=
          List.set_append_left p x (by rw [List.length_take]; omega)
        rw [hset, set_take_succ v.elems p x hplt]
        rw [List.append_assoc, shifted_assemble v.elems p hplt, List.append_assoc,
          List.singleton_append]
  · rw [List.length_append, List.length_cons, List.length_take, List.length_drop]
    omega

/-- Witness for C5: inserting 9 at interior position 1 of [1, 2, 3] (size
3, capacity 4: the in-place shifting path) yields [1, 9, 2, 3] with
capacity 4 and returns offset 1. -/
theorem emplace_splices_witness :
    emplaceE (⟨[1, 2, 3], 4⟩ : Vec Nat) 1 (some 9)
        (fun a => some a) (fun a => some a) (fun a => some a) =
      .ok (⟨[1, 9, 2, 3], 4⟩, 1) :=
  (emplace_splices ⟨[1, 2, 3], 4⟩ 1 9 (by decide)).1

/-- C6. For every non-empty vector and position p in [0, size), Erase
with non-throwing move-assignment succeeds (it never throws in that
case): the result keeps the elements other than the one at p in their
relative order (prefix before p, then the suffix after p), the size drops
by exactly 1, the capacity is unchanged, and the returned offset p names
the slot now holding the element that followed the erased one — or the
new end when the erased element was last. -/
theorem erase_spec {α : Type} (v : Vec α) (p : Nat) (hp : p < v.elems.length) :
    eraseE v p (fun a => some a) =
      .ok (⟨v.elems.take p ++ v.elems.drop (p + 1), v.cap⟩, p) ∧
    (v.elems.take p ++ v.elems.drop (p + 1)).length = v.elems.length - 1 ∧
    (∀ hq : p + 1 < v.elems.length,
      (v.elems.take p ++ v.elems.drop (p + 1))[p]? = some v.elems[p + 1]) ∧
    (p + 1 = v.elems.length →
      p = (v.elems.take p ++ v.elems.drop (p + 1)).length) := by
  have hlen : (v.elems.take p ++ v.elems.drop (p + 1)).length = v.elems.length - 1 := by
    rw [List.length_append, List.length_take, List.length_drop]
    omega
  refine ⟨?_, hlen, ?_, ?_⟩
  · unfold eraseE
    rw [moveForwardN_id (v.elems.length - 1 - p) v.elems p (by omega)]
    have h1 : p + (v.elems.length - 1 - p) = v.elems.length - 1 := by omega
    rw [h1]
    have h2 : (v.elems.drop (p + 1)).take (v.elems.length - 1 - p) =
        v.elems.drop (p + 1) :=
      List.take_of_length_le (by rw [List.length_drop]; omega)
    rw [h2]
    have h3 : v.elems.drop (v.elems.length - 1) = [v.elems[v.elems.length - 1]] := by
      rw [List.drop_eq_getElem_cons (by omega)]
      have h4 : v.elems.length - 1 + 1 = v.elems.length := by omega
      rw [h4, List.drop_length]
    rw [h3]
    show Except.ok
        (popBack
          (Vec.mk
            (v.elems.take p ++ v.elems.drop (p + 1) ++ [v.elems[v.elems.length - 1]])
            v.cap), p) =
      Except.ok (Vec.mk (v.elems.take p ++ v.elems.drop (p + 1)) v.cap, p)
    unfold popBack
    rw [if_pos (by simp)]
    rw [List.dropLast_concat]
  · intro hq
    rw [List.getElem?_append_right (by rw [List.length_take]; omega)]
    have hl : (v.elems.take p).length = p := by
      rw [List.length_take]
      omega
    rw [hl, Nat.sub_self, List.getElem?_drop]
    exact List.getElem?_eq_getElem hq
  · intro hq
    rw [hlen]
    omega

/-- Witness for C6: erasing position 1 of [1, 2, 3] (capacity 3) yields
[1, 3] with capacity 3 and returns offset 1, the slot now holding 3 —
the element that followed the erased 2. -/
theorem erase_spec_witness :
    eraseE (⟨[1, 2, 3], 3⟩ : Vec Nat) 1 (fun a => some a) =
      .ok (⟨[1, 3], 3⟩, 1) ∧
    ([1, 3] : List Nat)[1]? = some 3 :=
  ⟨(erase_spec ⟨[1, 2, 3], 3⟩ 1 (by decide)).1,
   (erase_spec ⟨[1, 2, 3], 3⟩ 1 (by decide)).2.2.1 (by decide)⟩

/-- The backward shift loop preserves the number of live slots, on both
its success and its exception outcome: move-assignments overwrite live
elements, they never create or remove one. -/
theorem moveBackwardN_length {α : Type} (c : Nat) :
    ∀ (l : List α) (p : Nat) (mas : α → Option α),
      (∀ r, moveBackwardN mas l p c = .ok r → r.length = l.length) ∧
      (∀ r, moveBackwardN mas l p c = .error r → r.length = l.length) := by
  induction c with
  | zero =>
    intro l p mas
    constructor
    · intro r hr
      injection hr with h
      rw [← h]
    · intro r hr
      exact Except.noConfusion hr
  | succ c ih =>
    intro l p mas
    cases hx : l[p + c]? with
    | none =>
      have hred : moveBackwardN mas l p (c + 1) = .ok l := by
        simp only [moveBackwardN, hx]
      constructor
      · intro r hr
        rw [hred] at hr
        injection hr with h
        rw [← h]
      · intro r hr
        rw [hred] at hr
        exact Except.noConfusion hr
    | some x =>
      cases hm : mas x with
      | none =>
        have hred : moveBackwardN mas l p (c + 1) = .error l := by
          simp only [moveBackwardN, hx, hm]
        constructor
        · intro r hr
          rw [hred] at hr
          exact Except.noConfusion hr
        · intro r hr
          rw [hred] at hr
          injection hr with h
          rw [← h]
      | some y =>
        have hred : moveBackwardN mas l p (c + 1) =
            moveBackwardN mas (l.set (p + c + 1) y) p c := by
          simp only [moveBackwardN, hx, hm]
        constructor
        · intro r hr
          rw [hred] at hr
          have hlen := (ih (l.set (p + c + 1) y) p mas).1 r hr
          rw [List.length_set] at hlen
          exact hlen
        · intro r hr
          rw [hred] at hr
          have hlen := (ih (l.set (p + c + 1) y) p mas).2 r hr
          rw [List.length_set] at hlen
          exact hlen

/-- C2. Strong exception guarantee on all growth-triggering paths: if an
element construction (mk) or a relocation (reloc) throws during
Reserve(n) with n > capacity, during EmplaceBack with size == capacity,
or during Emplace on the growth path (capacity <= size), then the vector
observable after the exception has exactly the size, capacity and
elements it had before the call. -/
theorem growth_strong_guarantee {α : Type} (v : Vec α) (n p : Nat) (mk : Option α)
    (mctor mas reloc : α → Option α) :
    (∀ e, v.cap < n → reserveE v n reloc = .error e → e = v) ∧
    (∀ e, v.elems.length = v.cap → emplaceBackE v mk reloc = .error e → e = v) ∧
    (∀ e, v.cap ≤ v.elems.length → emplaceE v p mk mctor mas reloc = .error e →
      e.elems = v.elems ∧ e.cap = v.cap ∧ e.sizeCtr = v.elems.length) := by
  refine ⟨?_, ?_, ?_⟩
  · intro e hn he
    unfold reserveE at he
    rw [if_neg (by omega)] at he
    cases hrel : relocList reloc v.elems with
    | none =>
      rw [hrel] at he
      injection he with h
      rw [h]
    | some moved =>
      rw [hrel] at he
      exact Except.noConfusion he
  · intro e hsz he
    unfold emplaceBackE at he
    rw [if_pos hsz] at he
    cases mk with
    | none =>
      injection he with h
      rw [h]
    | some x =>
      cases hrel : relocList reloc v.elems with
      | none =>
        rw [hrel] at he
        injection he with h
        rw [h]
      | some moved =>
        rw [hrel] at he
        exact Except.noConfusion he
  · intro e hg he
    unfold emplaceE at he
    rw [if_pos hg] at he
    cases mk with
    | none =>
      injection he with h
      rw [← h]
      exact ⟨rfl, rfl, rfl⟩
    | some x =>
      cases hr1 : relocList reloc (v.elems.take p) with
      | none =>
        rw [hr1] at he
        injection he with h
        rw [← h]
        exact ⟨rfl, rfl, rfl⟩
      | some front =>
        rw [hr1] at he
        cases hr2 : relocList reloc (v.elems.drop p) with
        | none =>
          rw [hr2] at he
          injection he with h
          rw [← h]
          exact ⟨rfl, rfl, rfl⟩
        | some back =>
          rw [hr2] at he
          exact Except.noConfusion he

/-- Witness for C2: a size-1, capacity-1 vector; a throwing relocation
during Reserve(2), a throwing new-element construction during
EmplaceBack, and a throwing new-element construction during Emplace at
position 0 each leave the vector at size 1, capacity 1, contents [1]. -/
theorem growth_strong_guarantee_witness :
    reserveE (⟨[1], 1⟩ : Vec Nat) 2 (fun _ => none) = .error ⟨[1], 1⟩ ∧
    emplaceBackE (⟨[1], 1⟩ : Vec Nat) none (fun a => some a) = .error ⟨[1], 1⟩ ∧
    emplaceE (⟨[1], 1⟩ : Vec Nat) 0 none (fun a => some a) (fun a => some a)
        (fun a => some a) =
      .error ⟨[1], 1, 1, false, false, true⟩ ∧
    (⟨[1], 1⟩ : Vec Nat) = ⟨[1], 1⟩ ∧
    ((⟨[1], 1, 1, false, false, true⟩ : EmplaceErr Nat).elems = [1] ∧
      (⟨[1], 1, 1, false, false, true⟩ : EmplaceErr Nat).cap = 1 ∧
      (⟨[1], 1, 1, false, false, true⟩ : EmplaceErr Nat).sizeCtr = 1) :=
  ⟨rfl, rfl, rfl,
   (growth_strong_guarantee (⟨[1], 1⟩ : Vec Nat) 2 0 none (fun a => some a)
       (fun a => some a) (fun _ => none)).1 ⟨[1], 1⟩ (by decide) rfl,
   (growth_strong_guarantee (⟨[1], 1⟩ : Vec Nat) 2 0 none (fun a => some a)
       (fun a => some a) (fun a => some a)).2.2 ⟨[1], 1, 1, false, false, true⟩
     (by decide) rfl⟩

/-- C3. In-place Emplace (size < capacity, position strictly before
end): when an exception escapes after the trailing slot has been
constructed into (the shift of line 262 or the final move-assignment of
line 263 throws), the catch handler of lines 271-274 only calls operator
delete on the trailing slot — releasing its raw memory without invoking
any destructor there — and rethrows before ++size_ runs, so the size
counter and the capacity are unchanged and the live range still holds
exactly size elements (a valid but possibly different sequence: a basic,
not strong, guarantee). -/
theorem emplace_inplace_basic_guarantee {α : Type} (v : Vec α) (p : Nat)
    (mk : Option α) (mctor mas reloc : α → Option α) (e : EmplaceErr α)
    (hcap : v.elems.length < v.cap) (hp : p < v.elems.length)
    (he : emplaceE v p mk mctor mas reloc = .error e)
    (htrail : e.newSlotConstructed = true) :
    e.sizeCtr = v.elems.length ∧
    e.newSlotDestroyCalled = false ∧
    e.newSlotRawReleased = true ∧
    e.elems.length = v.elems.length ∧
    e.cap = v.cap := by
  unfold emplaceE at he
  rw [if_neg (by omega)] at he
  rw [if_pos (by omega : p ≠ v.elems.length)] at he
  cases mk with
  | none =>
    injection he with h
    rw [← h] at htrail
    simp at htrail
  | some temp =>
    cases hlast : v.elems.getLast? with
    | none =>
      simp only [hlast] at he
      exact Except.noConfusion he
    | some lastElem =>
      simp only [hlast] at he
      cases hmc : mctor lastElem with
      | none =>
        simp only [hmc] at he
        injection he with h
        rw [← h] at htrail
        simp at htrail
      | some tr =>
        simp only [hmc] at he
        cases hmb : moveBackwardN mas v.elems p (v.elems.length - 1 - p) with
        | error l =>
          simp only [hmb] at he
          injection he with h
          have hlen := (moveBackwardN_length (v.elems.length - 1 - p) v.elems p mas).2 l hmb
          rw [← h]
          exact ⟨rfl, rfl, rfl, hlen, rfl⟩
        | ok l =>
          simp only [hmb] at he
          cases hmas : mas temp with
          | none =>
            simp only [hmas] at he
            injection he with h
            have hlen := (moveBackwardN_length (v.elems.length - 1 - p) v.elems p mas).1 l hmb
            rw [← h]
            exact ⟨rfl, rfl, rfl, hlen, rfl⟩
          | some tv =>
            simp only [hmas] at he
            exact Except.noConfusion he

/-- Witness for C3: size-2, capacity-4 vector [1, 2], Emplace at position
0 whose shift move-assignment throws: the exception state keeps size 2,
capacity 4, two live elements, the trailing slot constructed but not
destroyed, its raw memory released. -/
theorem emplace_inplace_basic_guarantee_witness :
    emplaceE (⟨[1, 2], 4⟩ : Vec Nat) 0 (some 5) (fun a => some a) (fun _ => none)
        (fun a => some a) =
      .error ⟨[1, 2], 4, 2, true, false, true⟩ ∧
    ((⟨[1, 2], 4, 2, true, false, true⟩ : EmplaceErr Nat).sizeCtr = 2 ∧
      (⟨[1, 2], 4, 2, true, false, true⟩ : EmplaceErr Nat).newSlotDestroyCalled = false ∧
      (⟨[1, 2], 4, 2, true, false, true⟩ : EmplaceErr Nat).newSlotRawReleased = true ∧
      (⟨[1, 2], 4, 2, true, false, true⟩ : EmplaceErr Nat).elems.length = 2 ∧
      (⟨[1, 2], 4, 2, true, false, true⟩ : EmplaceErr Nat).cap = 4) :=
  ⟨rfl,
   emplace_inplace_basic_guarantee (⟨[1, 2], 4⟩ : Vec Nat) 0 (some 5)
     (fun a => some a) (fun _ => none) (fun a => some a)
     ⟨[1, 2], 4, 2, true, false, true⟩ (by decide) (by decide) rfl rfl⟩
